import Mathlib

/-!
Verification of the tfm_air_quality data pipeline.

Shallow embedding of the pipeline's core operations:
* `DataMerger.merge_all_data` (src/dataset_creator/processors/data_merger.py),
* `DatasetCleaner` steps (src/dataset_creator/processors/dataset_cleaner.py),
* `AirQualityProcessor.classify_quality` together with the threshold tables
  (src/dataset_creator/processors/AirQualityProcessor.py,
   src/database/utils/air_quality_rules.py),
* `ProvinceMapper` (src/dataset_creator/utils/province_mapper.py),
* `SocioeconomicProcessor.tranform_dataframe`
  (src/database/processors/SocioeconomicProcessor.py).

Pandas tables are modelled as Lean lists of typed rows; pandas `NaN` cells
are modelled as `Option`; `numpy.inf` threshold bounds as `⊤ : WithTop ℚ`.
-/

namespace TFMAirQuality

/-! ## Data model for `DataMerger.merge_all_data`

The merge operates on three tables.  The primary (air-quality) table is keyed
by the columns `Province`/`Year`, the health table by `Province`/`Periodo`,
the socioeconomic table by `Province`/`anio`.  Non-key columns are modelled
as an opaque payload (`ℚ` metric).  -/

/-- A row of the normalized air-quality table (keys `Province`, `Year`). -/
structure AQRow where
  province : String
  year : Int
  level : ℚ
  deriving DecidableEq, Repr

/-- A row of the normalized health table (keys `Province`, `Periodo`). -/
structure HealthRow where
  province : String
  periodo : Int
  mortality : ℚ
  deriving DecidableEq, Repr

/-- A row of the normalized socioeconomic table (keys `Province`, `anio`). -/
structure SocioRow where
  province : String
  anio : Int
  pib : ℚ
  deriving DecidableEq, Repr

/-- Pandas `pd.merge(A, B, left_on=ka, right_on=kb, how='left')`: for every
row of `A`, in order, all matching rows of `B` (Cartesian expansion on
duplicate keys); a left row without a match is kept once, with the right-side
columns null (`none`). -/
def leftMerge {α β K : Type} [DecidableEq K]
    (A : List α) (B : List β) (ka : α → K) (kb : β → K) :
    List (α × Option β) :=
  A.flatMap (fun a =>
    match B.filter (fun b => kb b = ka a) with
    | [] => [(a, none)]
    | bs => bs.map (fun b => (a, some b)))

/-- A merged row: the air-quality row, enriched with the non-key health and
socioeconomic columns where a key match existed (the redundant key columns
`Periodo` and `anio` are dropped after the joins, line 137 of
data_merger.py). -/
structure MergedRow where
  province : String
  year : Int
  level : ℚ
  mortality : Option ℚ
  pib : Option ℚ
  deriving DecidableEq, Repr

/-- `DataMerger.merge_all_data` (data_merger.py lines 96-138): two sequential
left joins — air quality ⋈ health on (`Province`,`Year`)=(`Province`,`Periodo`),
then ⋈ socioeconomic on (`Province`,`Year`)=(`Province`,`anio`) — followed by
dropping the duplicate key columns `Periodo` and `anio`. -/
def merge_all_data (A : List AQRow) (B : List HealthRow) (C : List SocioRow) :
    List MergedRow :=
  let step1 := leftMerge A B (fun a => (a.province, a.year))
      (fun b => (b.province, b.periodo))
  let step2 := leftMerge step1 C (fun ab => (ab.1.province, ab.1.year))
      (fun c => (c.province, c.anio))
  step2.map (fun abc =>
    { province := abc.1.1.province
      year := abc.1.1.year
      level := abc.1.1.level
      mortality := abc.1.2.map (·.mortality)
      pib := abc.2.map (·.pib) })

/-! ## `DatasetCleaner` (dataset_cleaner.py) -/

/-- A row of the merged dataset as seen by the cleaner, with an
integer-typed `Year` column.  A null `Province` cell is `none`. -/
structure CRow where
  province : Option String
  year : Int
  value : ℚ
  deriving DecidableEq, Repr

/-- A date value; `.dt.year` extracts the `year` field. -/
structure DateVal where
  year : Int
  month : Int
  day : Int
  deriving DecidableEq, Repr

/-- A row of the merged dataset with a datetime-typed `Year` column. -/
structure CRowD where
  province : Option String
  date : DateVal
  value : ℚ
  deriving DecidableEq, Repr

/-- Pandas `Series.between(lo, hi)`: inclusive on both ends by default. -/
def seriesBetween (v lo hi : Int) : Bool :=
  lo ≤ v && v ≤ hi

/-- `DatasetCleaner._remove_null_provinces` (dataset_cleaner.py lines 69-81).
Computes the percentage of rows with a null `Province`.  If it is 0 the
table is untouched; if it is strictly below 5 the null rows are dropped; at
or above 5 the table is untouched and a warning is logged (`true` in the
returned pair records that `logger.warning` fired).  On an empty table
pandas' `Series.mean()` is `NaN`, which fails both the `== 0` and the `< 5`
comparison, so the warning branch is taken. -/
def remove_null_provinces (rows : List CRow) : List CRow × Bool :=
  if rows.length = 0 then (rows, true)
  else
    let pct : ℚ := ((rows.filter (fun r => r.province = none)).length : ℚ) * 100 / (rows.length : ℚ)
    if pct = 0 then (rows, false)
    else if pct < 5 then (rows.filter (fun r => r.province ≠ none), false)
    else (rows, true)

/-- `DatasetCleaner._filter_timeframe` (dataset_cleaner.py lines 103-117),
integer-typed `Year` branch: mask `self._dataset['Year'].between(2000, 2022)`. -/
def filter_timeframe_int (rows : List CRow) : List CRow :=
  rows.filter (fun r => seriesBetween r.year 2000 2022)

/-- `DatasetCleaner._filter_timeframe` (dataset_cleaner.py lines 103-117),
datetime-typed `Year` branch: mask `self._dataset['Year'].dt.year.between(2000, 2022)`. -/
def filter_timeframe_date (rows : List CRowD) : List CRowD :=
  rows.filter (fun r => seriesBetween r.date.year 2000 2022)

/-- `DatasetCleaner._remove_island_observations` (dataset_cleaner.py lines
83-91): drops every row whose `Province` is one of the island provinces. -/
def island_provinces : List String :=
  ["Santa Cruz de Tenerife", "Las Palmas", "Illes Balears", "Ceuta", "Melilla"]

/-- `~df['Province'].isin(island_provinces)` row mask and filter. -/
def remove_island_observations (rows : List CRow) : List CRow :=
  rows.filter (fun r => !(island_provinces.any (fun p => r.province = some p)))

/-- `DatasetCleaner._remove_undefined_provinces` (dataset_cleaner.py lines
93-101): drops every row whose `Province` is a sentinel value. -/
def undefined_provinces : List String :=
  ["Desconocido", "Error"]

/-- `~df['Province'].isin(undefined_provinces)` row mask and filter. -/
def remove_undefined_provinces (rows : List CRow) : List CRow :=
  rows.filter (fun r => !(undefined_provinces.any (fun p => r.province = some p)))

/-- `DatasetCleaner.clean_dataset` (dataset_cleaner.py lines 49-67) on the
copy of the input: the four cleaning steps in order (integer-typed `Year`
branch of the timeframe filter). -/
def clean_dataset (rows : List CRow) : List CRow :=
  filter_timeframe_int
    (remove_undefined_provinces
      (remove_island_observations (remove_null_provinces rows).1))

/-! ## `ProvinceMapper` (province_mapper.py) -/

/-- Outcome of `ProvinceMapper._load_json_file` on a cold cache. -/
inductive LoadResult
  | ok (mapping : List (String × List String))
  | fileNotFound
  | valueError (found : Nat)
  deriving DecidableEq, Repr

/-- `ProvinceMapper._load_json_file` (province_mapper.py lines 18-40) on a
cold cache, as a function of the file-system state: `none` models a missing
`unified_province_name.json`, `some m` the parsed JSON dictionary (province
→ list of alias strings, in file order).  An absent file raises
`FileNotFoundError`; a parsed mapping whose number of keys differs from 52
raises `ValueError`; otherwise the mapping is cached and loading
succeeds. -/
def load_json_file (file : Option (List (String × List String))) : LoadResult :=
  match file with
  | none => LoadResult.fileNotFound
  | some m =>
    if m.length = 52 then LoadResult.ok m else LoadResult.valueError m.length

/-- One assignment `m[k] = v` on a Python dict: an existing key keeps its
position and receives the new value; a fresh key is appended at the end. -/
def dictInsert : List (String × String) → String → String → List (String × String)
  | [], k, v => [(k, v)]
  | p :: m, k, v => if p.1 = k then (k, v) :: m else p :: dictInsert m k v

/-- Python dict lookup on the insertion-ordered association list. -/
def dictLookup (m : List (String × String)) (k : String) : Option String :=
  (m.find? (fun p => p.1 == k)).map (fun p => p.2)

/-- The flat `alias → province` dict comprehension of `map_province_name`
(province_mapper.py lines 64-68), from an arbitrary starting dict:
provinces in mapping order, aliases in list order, later assignments
overwriting earlier ones. -/
def foldMapping (acc : List (String × String)) :
    List (String × List String) → List (String × String)
  | [] => acc
  | pr :: rest =>
    foldMapping (pr.2.foldl (fun acc2 a => dictInsert acc2 a pr.1) acc) rest

/-- The flat `alias → province` dict built by `map_province_name`
(province_mapper.py lines 64-68), starting from the empty dict. -/
def buildFlatMapping (mapping : List (String × List String)) :
    List (String × String) :=
  foldMapping [] mapping

/-- `df['Province'].astype(str).replace(province_mapping)`
(province_mapper.py line 71): every cell that is a key of the flat mapping
is replaced by its value; any other cell is left unchanged. -/
def map_province_column (mapping : List (String × List String))
    (col : List String) : List String :=
  col.map (fun s =>
    match dictLookup (buildFlatMapping mapping) s with
    | some p => p
    | none => s)

/-- `ProvinceMapper._check_provinces` (province_mapper.py lines 77-95):
`df['Province'].unique()` deduplicates the column in order of first
appearance; the names that are neither an official province nor a known
alias form the unrecognized set. -/
def check_provinces (mapping : List (String × List String))
    (col : List String) : List String :=
  col.dedup.filter (fun s =>
    !(mapping.any (fun pr => pr.1 == s || pr.2.contains s)))

/-- `ProvinceMapper.map_province_name` (province_mapper.py lines 42-75) on a
column: returns the normalized column together with the emitted warnings —
one single warning carrying the whole unrecognized set when it is
non-empty, none otherwise. -/
def map_province_name (mapping : List (String × List String))
    (col : List String) : List String × List (List String) :=
  let out := map_province_column mapping col
  let unknown := check_provinces mapping out
  (out, if unknown = [] then [] else [unknown])

/-! ## Caller-visible aliasing of the stage operations

Each `*_call` definition records, next to the returned table, what the
caller's own table holds after the call: `clean_dataset` copies its
argument first (`dataset.copy()`, dataset_cleaner.py line 59) and
`pd.merge` allocates fresh frames, so their inputs are untouched, while
`map_province_name` assigns `df['Province'] = ...` directly on the caller's
frame (province_mapper.py lines 71-72) and returns that same frame. -/

/-- Caller's table after / return value of `DatasetCleaner.clean_dataset`. -/
def clean_dataset_call (t : List CRow) : List CRow × List CRow :=
  (t, clean_dataset t)

/-- Caller's tables after / return value of `DataMerger.merge_all_data`. -/
def merge_all_data_call (A : List AQRow) (B : List HealthRow) (C : List SocioRow) :
    (List AQRow × List HealthRow × List SocioRow) × List MergedRow :=
  ((A, B, C), merge_all_data A B C)

/-- Caller's column after / return value of
`ProvinceMapper.map_province_name`: the in-place column assignment makes
both components the normalized column. -/
def map_province_name_call (mapping : List (String × List String))
    (col : List String) : List String × List String :=
  (map_province_column mapping col, map_province_column mapping col)

/-! ## `AirQualityProcessor.classify_quality` and the threshold tables -/

/-- Shorthand for a finite threshold bound (`WithTop ℚ`; `⊤` is `np.inf`). -/
def wq (q : ℚ) : WithTop ℚ := (q : WithTop ℚ)

/-- `quality_labels` (air_quality_rules.py lines 11-18). -/
def quality_labels : List String :=
  ["BUENA", "RAZONABLEMENTE BUENA", "REGULAR", "DESFAVORABLE",
   "MUY DESFAVORABLE", "EXTREMADAMENTE DESFAVORABLE"]

/-- `quality_thresholds` (air_quality_rules.py lines 3-9); `np.inf` is `⊤`. -/
def quality_thresholds : List (String × List (WithTop ℚ)) :=
  [("so2", [wq 0, wq 100, wq 200, wq 350, wq 500, wq 750, ⊤]),
   ("pm2.5", [wq 0, wq 10, wq 20, wq 25, wq 50, wq 75, ⊤]),
   ("pm10", [wq 0, wq 20, wq 40, wq 50, wq 100, wq 150, ⊤]),
   ("o3", [wq 0, wq 50, wq 100, wq 130, wq 240, wq 380, ⊤]),
   ("no2", [wq 0, wq 40, wq 90, wq 120, wq 230, wq 340, ⊤])]

/-- Bucket search of `pd.cut` over the intervals `(lo, hi]` formed by
consecutive bin edges (pandas default `right=True`): returns the label of
the first interval containing `v`, `none` when `v` falls in no interval
(pandas yields `NaN` there). -/
def pdCutAux (lo : WithTop ℚ) :
    List (WithTop ℚ) → List String → ℚ → Option String
  | hi :: rest, l :: ls, v =>
    if lo < (v : WithTop ℚ) ∧ (v : WithTop ℚ) ≤ hi then some l
    else pdCutAux hi rest ls v
  | _, _, _ => none

/-- `pd.cut([value], bins=bins, labels=labels)[0]` for strictly increasing
`bins`: the label of the interval `(bins[i], bins[i+1]]` containing `value`,
or `none` (`NaN`) when no interval contains it. -/
def pdCut (bins : List (WithTop ℚ)) (labels : List String) (v : ℚ) :
    Option String :=
  match bins with
  | [] => none
  | lo :: rest => pdCutAux lo rest labels v

/-- The per-row closure `get_quality` inside `classify_quality`
(AirQualityProcessor.py lines 136-144): a pollutant with a registered
threshold table is bucketed by `pd.cut`; any other pollutant gets the
literal label `'UNKNOWN'`. -/
def get_quality (pollutant : String) (value : ℚ) : Option String :=
  match quality_thresholds.lookup pollutant with
  | some bins => pdCut bins quality_labels value
  | none => some "UNKNOWN"

/-- The columns of the loaded air-quality table that `classify_quality`
touches: the `Air Pollutant` and `Air Pollution Level` columns and the
`Quality` column, which is absent (`none`) until classification ran. -/
structure AQDF where
  pollutant : List String
  level : List ℚ
  quality : Option (List (Option String))
  deriving DecidableEq, Repr

/-- `AirQualityProcessor.classify_quality` (AirQualityProcessor.py lines
118-165) on a loaded table: if a `Quality` column is already present the
table is returned untouched (lines 128-131); otherwise the pollutant names
are lower-cased and a `Quality` column is added by applying `get_quality`
row by row. -/
def classify_quality (df : AQDF) : AQDF :=
  if df.quality.isSome then df
  else
    let pol := df.pollutant.map (fun s => s.toLower)
    { pollutant := pol
      level := df.level
      quality := some ((pol.zip df.level).map (fun pv => get_quality pv.1 pv.2)) }

/-! ## `SocioeconomicProcessor.tranform_dataframe` (SocioeconomicProcessor.py)

The wide economic table has one `Provincia` column and one column per year;
`tranform_dataframe` melts it to long rows `(Province, anio, pib)`.  The
spec's round-trip check re-pivots the long table by province. -/

/-- A wide per-year-column economic table: the year column headers, and one
row per line holding the province name and the per-year values aligned with
the headers. -/
structure WideTable where
  years : List Int
  rows : List (String × List ℚ)
  deriving DecidableEq, Repr

/-- `pd.melt(id_vars='Provincia', var_name='anio')`: value columns are
stacked column-major — for each year column in order, one output row per
wide row carrying that column's value.  `meltCols rows ys j` processes the
year columns `ys` starting at column index `j`. -/
def meltCols (rows : List (String × List ℚ)) :
    List Int → Nat → List (String × Int × ℚ)
  | [], _ => []
  | y :: ys, j =>
    rows.filterMap (fun r => (r.2.get? j).map (fun v => (r.1, y, v))) ++
      meltCols rows ys (j + 1)

/-- The reshaping step of `SocioeconomicProcessor.tranform_dataframe`
(SocioeconomicProcessor.py lines 97-113): melt the wide table into long
rows `(Province, anio, pib)`.  The subsequent `to_datetime` / `astype
(float)` calls only change value representations and are not modelled. -/
def tranform_dataframe (t : WideTable) : List (String × Int × ℚ) :=
  meltCols t.rows t.years 0

/-- The (province, year) key of a long row. -/
def longKey (e : String × Int × ℚ) : String × Int :=
  (e.1, e.2.1)

/-- Modelled from the spec: the spec's round-trip check re-pivots the long
form by province (`DataFrame.pivot(index='Province', columns='anio',
values='pib')`).  Pandas `pivot` raises `ValueError` when an
(index, column) key is duplicated; otherwise each cell holds the value of
its unique key.  The result is the cell map, or `none` in the error case. -/
def pivotCells (long : List (String × Int × ℚ)) :
    Option (String → Int → Option ℚ) :=
  if (long.map longKey).Nodup then
    some (fun p y =>
      (long.find? (fun r => r.1 == p && r.2.1 == y)).map (fun r => r.2.2))
  else none

/-- Index of a year among the wide table's column headers. -/
def idxOfYear : List Int → Int → Option Nat
  | [], _ => none
  | z :: zs, y => if z = y then some 0 else (idxOfYear zs y).map (· + 1)

/-- The (province, year) cell of the wide table: the value at the year's
column position in the (first) row of that province. -/
def wideCell (t : WideTable) (p : String) (y : Int) : Option ℚ :=
  (t.rows.find? (fun r => r.1 == p)).bind (fun r =>
    (idxOfYear t.years y).bind (fun j => r.2.get? j))

/-! ## Theorems -/

/-- Helper: a left merge produces at least one output row per left row. -/
theorem leftMerge_length_ge {α β K : Type} [DecidableEq K]
    (A : List α) (B : List β) (ka : α → K) (kb : β → K) :
    A.length ≤ (leftMerge A B ka kb).length := by
  induction A with
  | nil => simp [leftMerge]
  | cons a as ih =>
    have h1 : 1 ≤ (match B.filter (fun b => kb b = ka a) with
        | [] => [(a, (none : Option β))]
        | bs => bs.map (fun b => (a, some b))).length := by
      cases hB : B.filter (fun b => kb b = ka a) with
      | nil => simp
      | cons b bs => simp
    simp only [leftMerge, List.flatMap_cons, List.length_append,
      List.length_cons] at *
    omega

/-- Helper: the left component of every output row of a left merge is a
member of the left input table. -/
theorem leftMerge_fst_mem {α β K : Type} [DecidableEq K]
    {A : List α} {B : List β} {ka : α → K} {kb : β → K}
    {r : α × Option β} (hr : r ∈ leftMerge A B ka kb) : r.1 ∈ A := by
  simp only [leftMerge, List.mem_flatMap] at hr
  obtain ⟨a, haA, har⟩ := hr
  cases hB : B.filter (fun b => kb b = ka a) with
  | nil =>
    rw [hB] at har
    simp only [List.mem_singleton] at har
    subst har
    exact haA
  | cons b bs =>
    rw [hB] at har
    simp only [List.mem_map] at har
    obtain ⟨b', _, hb'⟩ := har
    rw [← hb']
    exact haA

/-- C1: `merge_all_data` is primary-preserving — for a non-empty air-quality
table `A`, the merged table has at least `A.length` rows, and the
(`Province`, `Year`) key of every merged row is the key of some row of `A`. -/
theorem merge_all_data_primary_preserving
    (A : List AQRow) (B : List HealthRow) (C : List SocioRow)
    (hA : A ≠ []) :
    A.length ≤ (merge_all_data A B C).length ∧
    ∀ r ∈ merge_all_data A B C,
      (r.province, r.year) ∈ A.map (fun a => (a.province, a.year)) := by
  constructor
  · calc A.length
        ≤ (leftMerge A B (fun a => (a.province, a.year))
            (fun b => (b.province, b.periodo))).length :=
          leftMerge_length_ge A B _ _
      _ ≤ (leftMerge (leftMerge A B (fun a => (a.province, a.year))
            (fun b => (b.province, b.periodo))) C
            (fun ab => (ab.1.province, ab.1.year))
            (fun c => (c.province, c.anio))).length :=
          leftMerge_length_ge _ C _ _
      _ = (merge_all_data A B C).length := by
          simp [merge_all_data]
  · intro r hr
    simp only [merge_all_data, List.mem_map] at hr
    obtain ⟨abc, habc, hre⟩ := hr
    have h1 : abc.1 ∈ leftMerge A B (fun a => (a.province, a.year))
        (fun b => (b.province, b.periodo)) := leftMerge_fst_mem habc
    have h2 : abc.1.1 ∈ A := leftMerge_fst_mem h1
    simp only [List.mem_map]
    exact ⟨abc.1.1, h2, by rw [← hre]⟩

/-- C1 witness: the theorem instantiated at concrete one-row tables. -/
theorem merge_all_data_primary_preserving_witness :
    ([⟨"Madrid", 2005, 10⟩] : List AQRow).length ≤
      (merge_all_data [⟨"Madrid", 2005, 10⟩] [⟨"Madrid", 2005, 3⟩]
        [⟨"Madrid", 2005, 22000⟩]).length ∧
    ∀ r ∈ merge_all_data [⟨"Madrid", 2005, 10⟩] [⟨"Madrid", 2005, 3⟩]
        [⟨"Madrid", 2005, 22000⟩],
      (r.province, r.year) ∈
        ([⟨"Madrid", 2005, 10⟩] : List AQRow).map (fun a => (a.province, a.year)) :=
  merge_all_data_primary_preserving _ _ _ (by decide)

/-- C3: the null-province cleaning step is conditional on the missing
fraction.  For every non-empty merged table: at a 0% null fraction the table
is returned unchanged (no warning); at a fraction strictly below 5% exactly
the null-`Province` rows are dropped (filter keeps, in order, the rows whose
`Province` is non-null); at a fraction of 5% or more no row is dropped and
the warning fires. -/
theorem remove_null_provinces_conditional (rows : List CRow) (h : rows ≠ []) :
    (((rows.filter (fun r => r.province = none)).length : ℚ) * 100 / (rows.length : ℚ) = 0 →
      remove_null_provinces rows = (rows, false)) ∧
    (0 < ((rows.filter (fun r => r.province = none)).length : ℚ) * 100 / (rows.length : ℚ) →
      ((rows.filter (fun r => r.province = none)).length : ℚ) * 100 / (rows.length : ℚ) < 5 →
      remove_null_provinces rows = (rows.filter (fun r => r.province ≠ none), false)) ∧
    (5 ≤ ((rows.filter (fun r => r.province = none)).length : ℚ) * 100 / (rows.length : ℚ) →
      remove_null_provinces rows = (rows, true)) := by
  have hlen : rows.length ≠ 0 := by
    intro h0
    exact h (List.length_eq_zero.mp h0)
  refine ⟨fun h0 => ?_, fun hpos h5 => ?_, fun h5 => ?_⟩
  · simp only [remove_null_provinces, if_neg hlen, h0]
    simp
  · have hne : ((rows.filter (fun r => r.province = none)).length : ℚ) * 100 /
        (rows.length : ℚ) ≠ 0 := ne_of_gt hpos
    simp only [remove_null_provinces, if_neg hlen, if_neg hne, if_pos h5]
  · have hne : ((rows.filter (fun r => r.province = none)).length : ℚ) * 100 /
        (rows.length : ℚ) ≠ 0 := by
      intro h0
      rw [h0] at h5
      norm_num at h5
    have hge : ¬ ((rows.filter (fun r => r.province = none)).length : ℚ) * 100 /
        (rows.length : ℚ) < 5 := not_lt.mpr h5
    simp only [remove_null_provinces, if_neg hlen, if_neg hne, if_neg hge]

/-- C3 witness: on the two-row table with one null province (50% ≥ 5%) the
step keeps both rows and warns; on an all-resolved table it is the identity. -/
theorem remove_null_provinces_conditional_witness :
    remove_null_provinces [⟨none, 2005, 1⟩, ⟨some "Madrid", 2005, 2⟩] =
      ([⟨none, 2005, 1⟩, ⟨some "Madrid", 2005, 2⟩], true) ∧
    remove_null_provinces [⟨some "Madrid", 2005, 2⟩] =
      ([⟨some "Madrid", 2005, 2⟩], false) := by
  constructor
  · exact (remove_null_provinces_conditional
      [⟨none, 2005, 1⟩, ⟨some "Madrid", 2005, 2⟩] (by decide)).2.2
      (by norm_num [List.filter_cons, List.filter_nil, Option.some_ne_none])
  · exact (remove_null_provinces_conditional
      [⟨some "Madrid", 2005, 2⟩] (by decide)).1
      (by norm_num [List.filter_cons, List.filter_nil, Option.some_ne_none])

/-- C7: the year filter keeps exactly the rows whose year lies in the
inclusive range 2000–2022, both for an integer-typed and for a
datetime-typed `Year` column: a row is in the output iff it is in the input
and its (extracted) year `y` satisfies `2000 ≤ y ≤ 2022`.  In particular
rows with year 1999 or 2023 are removed and rows with year 2000 or 2022 are
retained. -/
theorem filter_timeframe_inclusive_range (ri : List CRow) (rd : List CRowD) :
    (∀ r, r ∈ filter_timeframe_int ri ↔
      r ∈ ri ∧ 2000 ≤ r.year ∧ r.year ≤ 2022) ∧
    (∀ r, r ∈ filter_timeframe_date rd ↔
      r ∈ rd ∧ 2000 ≤ r.date.year ∧ r.date.year ≤ 2022) := by
  constructor
  · intro r
    simp [filter_timeframe_int, List.mem_filter, seriesBetween]
  · intro r
    simp [filter_timeframe_date, List.mem_filter, seriesBetween]

/-- Helper: a successful `List.lookup` on a string-keyed association list
returns the value of an entry whose key is the looked-up string. -/
theorem lookup_mem {α : Type} (l : List (String × α)) (k : String) (b : α)
    (h : l.lookup k = some b) : (k, b) ∈ l := by
  induction l with
  | nil => simp [List.lookup] at h
  | cons p l ih =>
    rw [List.lookup_cons] at h
    cases hbeq : (k == p.1) with
    | true =>
      rw [hbeq] at h
      have hkey : k = p.1 := eq_of_beq hbeq
      have hb : p.2 = b := Option.some.inj h
      rw [hkey, ← hb]
      exact List.mem_cons_self _ _
    | false =>
      rw [hbeq] at h
      exact List.mem_cons_of_mem _ (ih h)

/-- Helper: `pd.cut` finds no bucket for a value at or below a
non-negative lowest bin edge (all intervals are open at their lower end). -/
theorem pdCutAux_nonpos (lo : WithTop ℚ) (rest : List (WithTop ℚ))
    (labels : List String) (v : ℚ) (hv : v ≤ 0) (hlo : 0 ≤ lo)
    (hrest : ∀ b ∈ rest, (0 : WithTop ℚ) ≤ b) :
    pdCutAux lo rest labels v = none := by
  induction rest generalizing lo labels with
  | nil => cases labels <;> rfl
  | cons hi rest ih =>
    cases labels with
    | nil => rfl
    | cons l ls =>
      have hvle : (v : WithTop ℚ) ≤ 0 := by
        rw [← WithTop.coe_zero]
        exact_mod_cast hv
      have hnot : ¬(lo < (v : WithTop ℚ) ∧ (v : WithTop ℚ) ≤ hi) := by
        rintro ⟨h1, -⟩
        exact absurd (lt_of_lt_of_le h1 (hvle.trans hlo)) (lt_irrefl lo)
      rw [pdCutAux, if_neg hnot]
      exact ih hi ls (hrest hi (List.mem_cons_self _ _))
        (fun b hb => hrest b (List.mem_cons_of_mem _ hb))

/-- Helper: when the final bin edge is `⊤` (`np.inf`) and the value is
strictly above the lowest edge, `pd.cut` assigns one of the labels. -/
theorem pdCutAux_total (lo : WithTop ℚ) (rest : List (WithTop ℚ))
    (labels : List String) (v : ℚ) (hlo : lo < (v : WithTop ℚ))
    (hlast : rest.getLast? = some ⊤) (hlen : rest.length = labels.length) :
    ∃ l ∈ labels, pdCutAux lo rest labels v = some l := by
  induction rest generalizing lo labels with
  | nil => simp at hlast
  | cons hi tail ih =>
    cases labels with
    | nil => simp at hlen
    | cons l ls =>
      by_cases h : (v : WithTop ℚ) ≤ hi
      · exact ⟨l, List.mem_cons_self _ _, by rw [pdCutAux, if_pos ⟨hlo, h⟩]⟩
      · have hhi : hi < (v : WithTop ℚ) := lt_of_not_le h
        cases tail with
        | nil =>
          simp only [List.getLast?_singleton, Option.some_inj] at hlast
          exact absurd (hlast ▸ le_top) h
        | cons hi2 tail2 =>
          rw [List.getLast?_cons_cons] at hlast
          have hlen2 : (hi2 :: tail2).length = ls.length := by
            simpa using hlen
          obtain ⟨l', hl', heq⟩ := ih hi ls hhi hlast hlen2
          refine ⟨l', List.mem_cons_of_mem _ hl', ?_⟩
          rw [pdCutAux, if_neg (fun hc => h hc.2)]
          exact heq

/-- C2 counterexample: the claim's bucket boundaries are wrong on the code.
`pd.cut` buckets with default `right=True` are lower-bound **exclusive** and
upper-bound **inclusive**: for the registered pollutant `so2` the value `0`
(the lowest bin edge, which the claim's lower-inclusive reading would place
in the first bucket `BUENA`) receives no label at all (pandas `NaN`), and
the value `100` (which the claim's upper-exclusive reading would place in
the second bucket `RAZONABLEMENTE BUENA`) receives the first label
`BUENA`. -/
theorem get_quality_boundary_counterexample :
    get_quality "so2" 0 = none ∧ get_quality "so2" 100 = some "BUENA" := by
  constructor <;> rfl

/-- C2 amended: for every row, `get_quality` assigns — for a pollutant with
a registered threshold table — a bucket that is lower-bound exclusive and
upper-bound inclusive with the final bucket unbounded above: any value
strictly above the lowest bin edge receives one of the six ordered severity
labels, while a value at or below the lowest bin edge receives no label
(null, pandas `NaN`); a pollutant without a registered threshold table
receives the explicit label `'UNKNOWN'`.  No case raises. -/
theorem get_quality_buckets (pol : String) (v : ℚ) :
    ((quality_thresholds.lookup pol).isSome = false →
      get_quality pol v = some "UNKNOWN") ∧
    ((quality_thresholds.lookup pol).isSome = true → v ≤ 0 →
      get_quality pol v = none) ∧
    ((quality_thresholds.lookup pol).isSome = true → 0 < v →
      ∃ l ∈ quality_labels, get_quality pol v = some l) := by
  refine ⟨fun h => ?_, fun h hv => ?_, fun h hv => ?_⟩
  · cases hl : quality_thresholds.lookup pol with
    | none => simp [get_quality, hl]
    | some bins =>
      rw [hl] at h
      simp at h
  · rw [Option.isSome_iff_exists] at h
    obtain ⟨bins, hl⟩ := h
    have hmem := lookup_mem _ _ _ hl
    simp only [get_quality, hl]
    simp only [quality_thresholds, List.mem_cons, List.not_mem_nil,
      or_false] at hmem
    rcases hmem with h1 | h1 | h1 | h1 | h1 <;>
      (rw [Prod.mk.injEq] at h1
       obtain ⟨-, rfl⟩ := h1
       exact pdCutAux_nonpos _ _ _ _ hv (by decide) (by decide))
  · rw [Option.isSome_iff_exists] at h
    obtain ⟨bins, hl⟩ := h
    have hmem := lookup_mem _ _ _ hl
    simp only [get_quality, hl]
    have hvpos : wq 0 < (v : WithTop ℚ) := by
      rw [wq, WithTop.coe_lt_coe]
      exact hv
    simp only [quality_thresholds, List.mem_cons, List.not_mem_nil,
      or_false] at hmem
    rcases hmem with h1 | h1 | h1 | h1 | h1 <;>
      (rw [Prod.mk.injEq] at h1
       obtain ⟨-, rfl⟩ := h1
       exact pdCutAux_total _ _ _ _ hvpos (by decide) (by decide))

/-- C2 witness: the amended theorem instantiated at the unregistered
pollutant `"co"`, at `so2` with value `0`, and at `so2` with value `50`. -/
theorem get_quality_buckets_witness :
    get_quality "co" 7 = some "UNKNOWN" ∧
    get_quality "so2" 0 = none ∧
    (∃ l ∈ quality_labels, get_quality "so2" 50 = some l) :=
  ⟨(get_quality_buckets "co" 7).1 rfl,
   (get_quality_buckets "so2" 0).2.1 rfl (by norm_num),
   (get_quality_buckets "so2" 50).2.2 rfl (by norm_num)⟩

/-- C10: `classify_quality` is idempotent at the stage level — a table that
already carries a `Quality` column is returned unchanged, and running the
stage twice equals running it once. -/
theorem classify_quality_idempotent (df : AQDF) :
    (df.quality.isSome = true → classify_quality df = df) ∧
    classify_quality (classify_quality df) = classify_quality df := by
  have key : ∀ e : AQDF, e.quality.isSome = true → classify_quality e = e := by
    intro e he
    simp [classify_quality, he]
  refine ⟨key df, ?_⟩
  by_cases hq : df.quality.isSome = true
  · have hdf := key df hq
    rw [hdf]
    exact hdf
  · apply key
    simp [classify_quality, hq]

/-- C10 witness: a table already carrying a `Quality` column is unchanged. -/
theorem classify_quality_idempotent_witness :
    classify_quality ⟨["no2"], [1], some [some "BUENA"]⟩ =
      ⟨["no2"], [1], some [some "BUENA"]⟩ :=
  (classify_quality_idempotent ⟨["no2"], [1], some [some "BUENA"]⟩).1 rfl

/-- C4: loading the alias mapping validates cardinality: a parsed mapping
with a number of entries different from 52 raises `ValueError`, one with
exactly 52 entries loads successfully, and an absent file raises
`FileNotFoundError`. -/
theorem load_json_file_cardinality :
    (∀ m : List (String × List String), m.length ≠ 52 →
      load_json_file (some m) = LoadResult.valueError m.length) ∧
    (∀ m : List (String × List String), m.length = 52 →
      load_json_file (some m) = LoadResult.ok m) ∧
    load_json_file none = LoadResult.fileNotFound := by
  refine ⟨fun m hm => ?_, fun m hm => ?_, rfl⟩
  · simp [load_json_file, hm]
  · simp [load_json_file, hm]

/-- A synthetic alias mapping with `n` distinct provinces. -/
def sampleMapping (n : Nat) : List (String × List String) :=
  (List.range n).map (fun i => (toString i, []))

/-- C4 witness: mappings with 51 and 52 entries and the absent file. -/
theorem load_json_file_cardinality_witness :
    load_json_file (some (sampleMapping 51)) = LoadResult.valueError 51 ∧
    load_json_file (some (sampleMapping 52)) = LoadResult.ok (sampleMapping 52) ∧
    load_json_file none = LoadResult.fileNotFound := by
  have h51 : (sampleMapping 51).length = 51 := by simp [sampleMapping]
  have h52 : (sampleMapping 52).length = 52 := by simp [sampleMapping]
  refine ⟨?_, ?_, load_json_file_cardinality.2.2⟩
  · have h := load_json_file_cardinality.1 (sampleMapping 51) (by rw [h51]; decide)
    rw [h, h51]
  · exact load_json_file_cardinality.2.1 (sampleMapping 52) h52

/-- Helper: a dict assignment makes its key map to its value. -/
theorem dictLookup_dictInsert_self (m : List (String × String)) (k v : String) :
    dictLookup (dictInsert m k v) k = some v := by
  induction m with
  | nil => simp [dictInsert, dictLookup, List.find?]
  | cons p m ih =>
    by_cases hp : p.1 = k
    · simp [dictInsert, hp, dictLookup, List.find?]
    · rw [dictInsert, if_neg hp]
      rw [dictLookup, List.find?] at *
      have : (p.1 == k) = false := beq_eq_false_iff_ne.mpr hp
      rw [this]
      exact ih

/-- Helper: a dict assignment leaves every other key unchanged. -/
theorem dictLookup_dictInsert_ne (m : List (String × String)) (k v k' : String)
    (h : k' ≠ k) : dictLookup (dictInsert m k v) k' = dictLookup m k' := by
  induction m with
  | nil =>
    simp [dictInsert, dictLookup, List.find?, beq_eq_false_iff_ne.mpr (Ne.symm h)]
  | cons p m ih =>
    by_cases hp : p.1 = k
    · subst hp
      simp [dictInsert, dictLookup, List.find?, beq_eq_false_iff_ne.mpr (Ne.symm h)]
    · rw [dictInsert, if_neg hp]
      by_cases hp' : p.1 = k'
      · simp [dictLookup, List.find?, hp']
      · rw [dictLookup, List.find?, dictLookup, List.find?]
        have : (p.1 == k') = false := beq_eq_false_iff_ne.mpr hp'
        rw [this]
        exact ih

/-- The inner fold leaves keys outside the alias list unchanged. -/
theorem foldl_dictInsert_not_mem (as : List String) (p a : String)
    (acc : List (String × String)) (ha : a ∉ as) :
    dictLookup (as.foldl (fun acc2 x => dictInsert acc2 x p) acc) a =
      dictLookup acc a := by
  induction as generalizing acc with
  | nil => rfl
  | cons a0 rest ih =>
    rw [List.foldl_cons]
    have h0 : a ≠ a0 := fun h => ha (h ▸ List.mem_cons_self _ _)
    rw [ih _ (fun h => ha (List.mem_cons_of_mem _ h)),
      dictLookup_dictInsert_ne _ _ _ _ h0]

/-- The inner fold of the dict comprehension: assign province `p` to all
aliases in `as`. -/
theorem foldl_dictInsert_mem (as : List String) (p a : String)
    (acc : List (String × String)) (ha : a ∈ as) :
    dictLookup (as.foldl (fun acc2 x => dictInsert acc2 x p) acc) a = some p := by
  induction as generalizing acc with
  | nil => simp at ha
  | cons a0 rest ih =>
    rw [List.foldl_cons]
    by_cases har : a ∈ rest
    · exact ih _ har
    · have ha0 : a = a0 := by
        rcases List.mem_cons.mp ha with h | h
        · exact h
        · exact absurd h har
      subst ha0
      rw [foldl_dictInsert_not_mem rest p a _ har,
        dictLookup_dictInsert_self]

/-- Helper: provinces none of whose aliases mention `a` do not disturb
`a`'s binding. -/
theorem foldMapping_not_mem (mapping : List (String × List String))
    (acc : List (String × String)) (a : String)
    (ha : ∀ pr ∈ mapping, a ∉ pr.2) :
    dictLookup (foldMapping acc mapping) a = dictLookup acc a := by
  induction mapping generalizing acc with
  | nil => rfl
  | cons pr rest ih =>
    rw [foldMapping]
    rw [ih _ (fun q hq => ha q (List.mem_cons_of_mem _ hq)),
      foldl_dictInsert_not_mem _ _ _ _ (ha pr (List.mem_cons_self _ _))]

/-- Helper: under pairwise-disjoint alias sets, the flat mapping sends every
alias to the province that owns it. -/
theorem foldMapping_resolves (mapping : List (String × List String))
    (acc : List (String × String)) (p a : String) (aliases : List String)
    (hdisj : mapping.Pairwise (fun x y => ∀ s, s ∈ x.2 → s ∉ y.2))
    (hmem : (p, aliases) ∈ mapping) (ha : a ∈ aliases) :
    dictLookup (foldMapping acc mapping) a = some p := by
  induction mapping generalizing acc with
  | nil => simp at hmem
  | cons pr rest ih =>
    rw [List.pairwise_cons] at hdisj
    rw [foldMapping]
    rcases List.mem_cons.mp hmem with h1 | h1
    · have hrest : ∀ q ∈ rest, a ∉ q.2 := fun q hq =>
        hdisj.1 q hq a (by rw [← h1]; exact ha)
      rw [foldMapping_not_mem rest _ a hrest, ← h1]
      exact foldl_dictInsert_mem _ _ _ _ ha
    · exact ih _ hdisj.2 h1

/-- Helper: an alias outside every alias list is absent from the flat
mapping. -/
theorem buildFlatMapping_lookup_none (mapping : List (String × List String))
    (a : String) (ha : ∀ pr ∈ mapping, a ∉ pr.2) :
    dictLookup (buildFlatMapping mapping) a = none := by
  rw [buildFlatMapping, foldMapping_not_mem mapping [] a ha]
  rfl

/-- Helper: under pairwise-disjoint alias sets, two mapping entries owning
the same alias are the same province. -/
theorem alias_owner_unique (mapping : List (String × List String))
    (p q a : String) (aliases bs : List String)
    (hdisj : mapping.Pairwise (fun x y => ∀ s, s ∈ x.2 → s ∉ y.2))
    (hp : (p, aliases) ∈ mapping) (hq : (q, bs) ∈ mapping)
    (hap : a ∈ aliases) (haq : a ∈ bs) : q = p := by
  induction mapping with
  | nil => simp at hp
  | cons hd tl ih =>
    rw [List.pairwise_cons] at hdisj
    rcases List.mem_cons.mp hp with h1 | h1 <;>
      rcases List.mem_cons.mp hq with h2 | h2
    · rw [← h2] at h1
      exact (Prod.mk.injEq _ _ _ _ |>.mp h1).1.symm
    · exact absurd haq (hdisj.1 (q, bs) h2 a (h1 ▸ hap))
    · exact absurd hap (hdisj.1 (p, aliases) h1 a (h2 ▸ haq))
    · exact ih hdisj.2 h1 h2

/-- C8: under the precondition that the alias sets of the loaded mapping
are pairwise disjoint across provinces, resolving a column replaces every
occurrence of an alias with the unique canonical province owning it, and no
alias is owned by two provinces. -/
theorem map_province_column_resolves (mapping : List (String × List String))
    (p a : String) (aliases : List String) (col : List String)
    (hdisj : mapping.Pairwise (fun x y => ∀ s, s ∈ x.2 → s ∉ y.2))
    (hmem : (p, aliases) ∈ mapping) (ha : a ∈ aliases) :
    (∀ i, col.get? i = some a → (map_province_column mapping col).get? i = some p) ∧
    (∀ q bs, (q, bs) ∈ mapping → a ∈ bs → q = p) := by
  constructor
  · intro i hi
    have hres : dictLookup (buildFlatMapping mapping) a = some p := by
      rw [buildFlatMapping]
      exact foldMapping_resolves mapping [] p a aliases hdisj hmem ha
    rw [map_province_column, List.get?_map, hi]
    simp [hres]
  · intro q bs hq haq
    exact alias_owner_unique mapping p q a aliases bs hdisj hmem hq ha haq

/-- A two-province mapping used by concrete witnesses. -/
def demoMapping : List (String × List String) :=
  [("Madrid", ["madrid", "MADRID"]), ("Barcelona", ["barna"])]

/-- C8 witness: in a concrete disjoint mapping, the alias `"barna"` in
column position 1 resolves to `"Barcelona"`. -/
theorem map_province_column_resolves_witness :
    (map_province_column demoMapping ["x", "barna"]).get? 1 = some "Barcelona" :=
  (map_province_column_resolves demoMapping "Barcelona" "barna" ["barna"]
    ["x", "barna"] (by decide) (by decide) (by decide)).1 1 (by decide)

/-- C6: resolution of an unrecognized province string is non-fatal — the
(total) mapping function keeps every occurrence of a string appearing in no
alias list unchanged in the output column, and the unresolved diagnostics
are reported as at most one warning per batch, each unresolved string
listed once (the warning list is duplicate-free). -/
theorem map_province_name_unresolved (mapping : List (String × List String))
    (col : List String) (s : String) (hs : ∀ pr ∈ mapping, s ∉ pr.2) :
    (∀ i, col.get? i = some s → (map_province_name mapping col).1.get? i = some s) ∧
    (map_province_name mapping col).2.length ≤ 1 ∧
    (∀ w ∈ (map_province_name mapping col).2, w.Nodup) := by
  refine ⟨fun i hi => ?_, ?_, fun w hw => ?_⟩
  · rw [map_province_name]
    rw [map_province_column, List.get?_map, hi]
    simp [buildFlatMapping_lookup_none mapping s hs]
  · rw [map_province_name]
    by_cases h : check_provinces mapping (map_province_column mapping col) = []
    · simp [h]
    · simp [h]
  · rw [map_province_name] at hw
    by_cases h : check_provinces mapping (map_province_column mapping col) = []
    · simp [h] at hw
    · simp only [if_neg h, List.mem_singleton] at hw
      subst hw
      exact List.Nodup.filter _ (List.nodup_dedup _)

/-- C6 witness: the unmapped string `"x"` survives in place and the batch
emits at most one duplicate-free warning. -/
theorem map_province_name_unresolved_witness :
    (map_province_name demoMapping ["x", "barna", "x"]).1.get? 0 = some "x" ∧
    (map_province_name demoMapping ["x", "barna", "x"]).2.length ≤ 1 :=
  ⟨(map_province_name_unresolved demoMapping ["x", "barna", "x"] "x"
      (by decide)).1 0 (by decide),
   (map_province_name_unresolved demoMapping ["x", "barna", "x"] "x"
      (by decide)).2.1⟩

/-- C9 counterexample: province resolution does mutate the caller's table
in place — `map_province_name` assigns the normalized values into the
`Province` column of the frame it was given (province_mapper.py line 71),
so after the call the caller's column differs from what was passed in. -/
theorem map_province_name_mutates_input :
    (map_province_name_call demoMapping ["madrid"]).1 ≠ ["madrid"] := by
  decide

/-- C9 amended: merging and cleaning leave the caller's input tables
unchanged (`clean_dataset` copies its argument, `pd.merge` allocates new
frames), but province resolution writes the normalized column back into the
caller's table: after the call the caller's table is the normalized
column itself. -/
theorem stage_frame_effects (t : List CRow) (A : List AQRow)
    (B : List HealthRow) (C : List SocioRow)
    (mapping : List (String × List String)) (col : List String) :
    (clean_dataset_call t).1 = t ∧
    (merge_all_data_call A B C).1 = (A, B, C) ∧
    (map_province_name_call mapping col).1 = map_province_column mapping col :=
  ⟨rfl, rfl, rfl⟩

/-- Helper: membership in the melt of a wide table, characterized by a
source row and a year-column index. -/
theorem mem_meltCols (rows : List (String × List ℚ)) (ys : List Int) (j : Nat)
    (e : String × Int × ℚ) :
    e ∈ meltCols rows ys j ↔
      ∃ row ∈ rows, e.1 = row.1 ∧
        ∃ k, ys.get? k = some e.2.1 ∧ row.2.get? (j + k) = some e.2.2 := by
  induction ys generalizing j with
  | nil => simp [meltCols]
  | cons y ys ih =>
    rw [meltCols, List.mem_append, List.mem_filterMap, ih]
    constructor
    · rintro (⟨row, hrow, hmap⟩ | ⟨row, hrow, h1, k, hk1, hk2⟩)
      · rcases hget : row.2.get? j with _ | v
        · rw [hget] at hmap
          simp at hmap
        · rw [hget] at hmap
          simp only [Option.map_some'] at hmap
          have he : e = (row.1, y, v) := (Option.some.inj hmap).symm
          refine ⟨row, hrow, by rw [he], 0, ?_, ?_⟩
          · rw [he, List.get?_cons_zero]
          · rw [he, Nat.add_zero, hget]
      · refine ⟨row, hrow, h1, k + 1, ?_, ?_⟩
        · rw [List.get?_cons_succ]
          exact hk1
        · have harith : j + (k + 1) = (j + 1) + k := by omega
          rw [harith]
          exact hk2
    · rintro ⟨row, hrow, h1, k, hk1, hk2⟩
      cases k with
      | zero =>
        left
        refine ⟨row, hrow, ?_⟩
        rw [List.get?_cons_zero] at hk1
        rw [Nat.add_zero] at hk2
        rw [hk2]
        simp only [Option.map_some']
        rw [Option.some_inj]
        have hy : y = e.2.1 := Option.some.inj hk1
        rw [hy, ← h1]
      | succ k =>
        right
        refine ⟨row, hrow, h1, k, ?_, ?_⟩
        · rw [List.get?_cons_succ] at hk1
          exact hk1
        · have harith : j + (k + 1) = (j + 1) + k := by omega
          rw [← harith]
          exact hk2

/-- Helper: the year of every melt row is one of the year columns. -/
theorem meltCols_year_mem (rows : List (String × List ℚ)) (ys : List Int)
    (j : Nat) (e : String × Int × ℚ) (he : e ∈ meltCols rows ys j) :
    e.2.1 ∈ ys := by
  obtain ⟨row, hrow, h1, k, hk1, hk2⟩ := (mem_meltCols rows ys j e).mp he
  exact List.get?_mem hk1

/-- Helper: inside one year-column block, the (province, year) keys are
pairwise distinct when the wide rows have pairwise-distinct provinces. -/
theorem block_keys_nodup (rows : List (String × List ℚ)) (y : Int) (j : Nat)
    (hprov : (rows.map Prod.fst).Nodup) :
    ((rows.filterMap
        (fun r => (r.2.get? j).map (fun v => (r.1, y, v)))).map longKey).Nodup := by
  rw [List.map_filterMap]
  induction rows with
  | nil => simp
  | cons r rows ih =>
    rw [List.map_cons, List.nodup_cons] at hprov
    rcases hget : r.2.get? j with _ | v
    · simp only [List.filterMap_cons, hget, Option.map_none']
      exact ih hprov.2
    · simp only [List.filterMap_cons, hget, Option.map_some']
      rw [List.nodup_cons]
      refine ⟨fun hmem => ?_, ih hprov.2⟩
      rw [List.mem_filterMap] at hmem
      obtain ⟨r', hr', heq⟩ := hmem
      rcases hget' : r'.2.get? j with _ | v'
      · simp only [hget', Option.map_none'] at heq
        exact Option.noConfusion heq
      · simp only [hget', Option.map_some'] at heq
        have hkeys := Option.some.inj heq
        have hfst : r'.1 = r.1 := by
          simpa [longKey] using congrArg Prod.fst hkeys
        exact hprov.1 (List.mem_map.mpr ⟨r', hr', hfst⟩)

/-- Helper: the (province, year) keys of the melt are pairwise distinct
when provinces and year columns are. -/
theorem meltCols_keys_nodup (rows : List (String × List ℚ)) (ys : List Int)
    (j : Nat) (hprov : (rows.map Prod.fst).Nodup) (hys : ys.Nodup) :
    ((meltCols rows ys j).map longKey).Nodup := by
  induction ys generalizing j with
  | nil => simp [meltCols]
  | cons y ys ih =>
    rw [List.nodup_cons] at hys
    rw [meltCols, List.map_append]
    refine List.Nodup.append (block_keys_nodup rows y j hprov)
      (ih (j + 1) hys.2) ?_
    intro x hx1 hx2
    rw [List.mem_map] at hx1 hx2
    obtain ⟨e1, he1, hx1e⟩ := hx1
    obtain ⟨e2, he2, hx2e⟩ := hx2
    rw [List.mem_filterMap] at he1
    obtain ⟨r, hr, hmap⟩ := he1
    rcases hget : r.2.get? j with _ | v
    · rw [hget] at hmap
      simp at hmap
    · rw [hget] at hmap
      simp only [Option.map_some'] at hmap
      have hy1 : x.2 = y := by
        rw [← hx1e, ← Option.some.inj hmap]
        rfl
      have hy2 : x.2 ∈ ys := by
        rw [← hx2e]
        exact meltCols_year_mem rows ys (j + 1) e2 he2
      exact hys.1 (hy1 ▸ hy2)

/-- Helper: under pairwise-distinct keys, the pivot's key search finds
exactly the member with that key. -/
theorem find_key_eq_some (l : List (String × Int × ℚ)) (e : String × Int × ℚ)
    (hnd : (l.map longKey).Nodup) (he : e ∈ l) :
    l.find? (fun r => r.1 == e.1 && r.2.1 == e.2.1) = some e := by
  induction l with
  | nil => simp at he
  | cons x l ih =>
    rw [List.map_cons, List.nodup_cons] at hnd
    by_cases hx : x.1 = e.1 ∧ x.2.1 = e.2.1
    · rw [List.find?_cons_of_pos _ (by simp [hx.1, hx.2])]
      rcases List.mem_cons.mp he with h | h
      · rw [h]
      · exfalso
        apply hnd.1
        have hxk : longKey x = longKey e := by
          rw [longKey, longKey, hx.1, hx.2]
        rw [hxk]
        exact List.mem_map_of_mem longKey h
    · have hpx : (x.1 == e.1 && x.2.1 == e.2.1) = false := by
        cases hb : (x.1 == e.1 && x.2.1 == e.2.1) with
        | false => rfl
        | true =>
          rw [Bool.and_eq_true, beq_iff_eq, beq_iff_eq] at hb
          exact absurd hb hx
      rw [List.find?_cons]
      simp only [hpx]
      apply ih hnd.2
      rcases List.mem_cons.mp he with h | h
      · exact absurd ⟨by rw [h], by rw [h]⟩ hx
      · exact h

/-- Helper: the pivot's key search fails when no row carries the key. -/
theorem find_key_eq_none (l : List (String × Int × ℚ)) (p : String) (y : Int)
    (h : ∀ e ∈ l, ¬(e.1 = p ∧ e.2.1 = y)) :
    l.find? (fun r => r.1 == p && r.2.1 == y) = none := by
  rw [List.find?_eq_none]
  intro x hx hc
  rw [Bool.and_eq_true, beq_iff_eq, beq_iff_eq] at hc
  exact h x hx hc

/-- Helper: `idxOfYear` returns a position of the year. -/
theorem idxOfYear_get? (ys : List Int) (y : Int) (k : Nat)
    (h : idxOfYear ys y = some k) : ys.get? k = some y := by
  induction ys generalizing k with
  | nil => simp [idxOfYear] at h
  | cons z zs ih =>
    rw [idxOfYear] at h
    by_cases hz : z = y
    · rw [if_pos hz] at h
      have h0 : 0 = k := Option.some.inj h
      rw [← h0, List.get?_cons_zero, hz]
    · rw [if_neg hz] at h
      rcases hidx : idxOfYear zs y with _ | k'
      · rw [hidx] at h
        simp at h
      · rw [hidx] at h
        simp only [Option.map_some'] at h
        have hk : k' + 1 = k := Option.some.inj h
        rw [← hk, List.get?_cons_succ]
        exact ih k' hidx

/-- Helper: on duplicate-free year columns, `idxOfYear` finds any position
holding the year. -/
theorem get?_idxOfYear (ys : List Int) (y : Int) (k : Nat) (hys : ys.Nodup)
    (h : ys.get? k = some y) : idxOfYear ys y = some k := by
  induction ys generalizing k with
  | nil => simp at h
  | cons z zs ih =>
    rw [List.nodup_cons] at hys
    cases k with
    | zero =>
      rw [List.get?_cons_zero] at h
      rw [idxOfYear, if_pos (Option.some.inj h)]
    | succ k =>
      rw [List.get?_cons_succ] at h
      have hz : z ≠ y := by
        intro hzy
        apply hys.1
        rw [hzy]
        exact List.get?_mem h
      rw [idxOfYear, if_neg hz, ih k hys.2 h]
      rfl

/-- Helper: one year-column block contributes its year once per wide row. -/
theorem block_years_map (rows : List (String × List ℚ)) (y : Int) (j : Nat)
    (hfull : ∀ r ∈ rows, (r.2.get? j).isSome = true) :
    (rows.filterMap
        (fun r => (r.2.get? j).map (fun v => (r.1, y, v)))).map (fun e => e.2.1) =
      List.replicate rows.length y := by
  induction rows with
  | nil => simp
  | cons r rows ih =>
    rcases hget : r.2.get? j with _ | v
    · have hcontr := hfull r (List.mem_cons_self _ _)
      rw [hget] at hcontr
      simp at hcontr
    · simp only [List.filterMap_cons, hget, Option.map_some']
      rw [List.map_cons, List.length_cons, List.replicate_succ]
      exact congrArg _ (ih (fun r' hr' => hfull r' (List.mem_cons_of_mem _ hr')))

/-- Helper: the year column of the melt is the year headers, each repeated
once per wide row. -/
theorem meltCols_years_map (rows : List (String × List ℚ)) (ys : List Int)
    (j : Nat) (hfull : ∀ r ∈ rows, j + ys.length ≤ r.2.length) :
    (meltCols rows ys j).map (fun e => e.2.1) =
      ys.flatMap (fun y => List.replicate rows.length y) := by
  induction ys generalizing j with
  | nil => simp [meltCols]
  | cons y ys ih =>
    rw [meltCols, List.map_append, List.flatMap_cons]
    congr 1
    · apply block_years_map
      intro r hr
      have hle := hfull r hr
      rw [List.length_cons] at hle
      have hj : j < r.2.length := by omega
      rw [List.get?_eq_get hj]
      rfl
    · apply ih
      intro r hr
      have hle := hfull r hr
      rw [List.length_cons] at hle
      omega

/-- Helper: deduplicating a run of one year followed by other years keeps
the year once in front. -/
theorem dedup_replicate_append (n : Nat) (y : Int) (l : List Int)
    (hn : n ≠ 0) (hy : y ∉ l) :
    (List.replicate n y ++ l).dedup = y :: l.dedup := by
  induction n with
  | zero => exact absurd rfl hn
  | succ m ih =>
    cases m with
    | zero =>
      simp only [List.replicate_succ, List.replicate_zero, List.cons_append,
        List.nil_append]
      exact List.dedup_cons_of_not_mem hy
    | succ m' =>
      rw [List.replicate_succ, List.cons_append, List.dedup_cons_of_mem
        (List.mem_append_left _ (by simp [List.mem_replicate]))]
      exact ih (by simp)

/-- Helper: deduplicating the repeated year headers recovers them. -/
theorem flatMap_replicate_dedup (ys : List Int) (n : Nat) (hn : n ≠ 0)
    (hys : ys.Nodup) :
    (ys.flatMap (fun y => List.replicate n y)).dedup = ys := by
  induction ys with
  | nil => simp
  | cons y ys ih =>
    rw [List.nodup_cons] at hys
    have hy : y ∉ ys.flatMap (fun z => List.replicate n z) := by
      intro hmem
      rw [List.mem_flatMap] at hmem
      obtain ⟨z, hz, hmemz⟩ := hmem
      rw [List.mem_replicate] at hmemz
      exact hys.1 (hmemz.2 ▸ hz)
    rw [List.flatMap_cons, dedup_replicate_append n y _ hn hy, ih hys.2]

/-- C5 counterexample: the round-trip fails on a wide table with two rows
for the same province — melting `years = [2000]`,
`rows = [("A", [1]), ("A", [2])]` duplicates the (province, year) key
`("A", 2000)`, pandas `pivot` raises on the duplicate key, and no cell map
reproduces the original table. -/
theorem tranform_dataframe_roundtrip_counterexample :
    ¬ ∃ cells,
        pivotCells (tranform_dataframe ⟨[2000], [("A", [1]), ("A", [2])]⟩) =
          some cells ∧
        ∀ p y, cells p y = wideCell ⟨[2000], [("A", [1]), ("A", [2])]⟩ p y := by
  rintro ⟨cells, hc, -⟩
  rw [show pivotCells (tranform_dataframe ⟨[2000], [("A", [1]), ("A", [2])]⟩) =
      none from rfl] at hc
  exact Option.noConfusion hc

/-- C5 amended: for every wide per-year-column table with at least one row,
pairwise-distinct provinces, duplicate-free year columns, and one value per
year column in every row, unpivoting with `tranform_dataframe` and
re-pivoting the long form by province reproduces the original wide table
exactly — the same value in every (province, year) cell and the same year
columns. -/
theorem tranform_dataframe_roundtrip (t : WideTable) (hrows : t.rows ≠ [])
    (hprov : (t.rows.map Prod.fst).Nodup) (hyears : t.years.Nodup)
    (hlen : ∀ r ∈ t.rows, r.2.length = t.years.length) :
    ∃ cells, pivotCells (tranform_dataframe t) = some cells ∧
      (∀ p y, cells p y = wideCell t p y) ∧
      ((tranform_dataframe t).map (fun e => e.2.1)).dedup = t.years := by
  have hnd : ((tranform_dataframe t).map longKey).Nodup :=
    meltCols_keys_nodup t.rows t.years 0 hprov hyears
  refine ⟨fun p y =>
      ((tranform_dataframe t).find? (fun r => r.1 == p && r.2.1 == y)).map
        (fun r => r.2.2), ?_, fun p y => ?_, ?_⟩
  · simp only [pivotCells]
    rw [if_pos hnd]
  · show ((tranform_dataframe t).find? (fun r => r.1 == p && r.2.1 == y)).map
      (fun r => r.2.2) = wideCell t p y
    rcases hw : wideCell t p y with _ | v
    · have hnone : (tranform_dataframe t).find?
          (fun r => r.1 == p && r.2.1 == y) = none := by
        apply find_key_eq_none
        rintro e he ⟨hep, hey⟩
        obtain ⟨row, hrow, h1, k, hk1, hk2⟩ :=
          (mem_meltCols t.rows t.years 0 e).mp he
        rcases hfr : t.rows.find? (fun r => r.1 == p) with _ | row0
        · apply List.find?_eq_none.mp hfr row hrow
          rw [beq_iff_eq, ← h1, hep]
        · have hrow0 : row0 ∈ t.rows := List.mem_of_find?_eq_some hfr
          have hrow0p : row0.1 = p := by
            have hsome := List.find?_some hfr
            rwa [beq_iff_eq] at hsome
          have heq0 : row0 = row := by
            apply List.inj_on_of_nodup_map hprov hrow0 hrow
            rw [hrow0p, ← hep, h1]
          have hidx : idxOfYear t.years y = some k := by
            apply get?_idxOfYear _ _ _ hyears
            rw [← hey]
            exact hk1
          simp only [wideCell] at hw
          rw [hfr, hidx] at hw
          simp only [Option.some_bind] at hw
          rw [heq0] at hw
          rw [Nat.zero_add] at hk2
          rw [hk2] at hw
          exact Option.noConfusion hw
      rw [hnone]
      rfl
    · simp only [wideCell] at hw
      rcases hfr : t.rows.find? (fun r => r.1 == p) with _ | row
      · rw [hfr] at hw
        simp at hw
      · rw [hfr] at hw
        rcases hidx : idxOfYear t.years y with _ | k
        · rw [hidx] at hw
          simp at hw
        · rw [hidx] at hw
          simp only [Option.some_bind] at hw
          have hrowmem : row ∈ t.rows := List.mem_of_find?_eq_some hfr
          have hrowp : row.1 = p := by
            have hsome := List.find?_some hfr
            rwa [beq_iff_eq] at hsome
          have hyk : t.years.get? k = some y := idxOfYear_get? t.years y k hidx
          have hmem : (p, y, v) ∈ tranform_dataframe t := by
            rw [tranform_dataframe, mem_meltCols]
            exact ⟨row, hrowmem, hrowp.symm, k, hyk, by rw [Nat.zero_add]; exact hw⟩
          have hfind : (tranform_dataframe t).find?
              (fun r => r.1 == p && r.2.1 == y) = some (p, y, v) :=
            find_key_eq_some (tranform_dataframe t) (p, y, v) hnd hmem
          rw [hfind]
          rfl
  · have hfull : ∀ r ∈ t.rows, 0 + t.years.length ≤ r.2.length := by
      intro r hr
      rw [hlen r hr]
      omega
    rw [tranform_dataframe, meltCols_years_map t.rows t.years 0 hfull]
    apply flatMap_replicate_dedup t.years t.rows.length ?_ hyears
    intro h0
    exact hrows (List.length_eq_zero.mp h0)

/-- C5 witness: the amended round trip on a concrete 2×2 wide table. -/
theorem tranform_dataframe_roundtrip_witness :
    ∃ cells,
      pivotCells (tranform_dataframe ⟨[2000, 2001], [("A", [1, 2]), ("B", [3, 4])]⟩) =
        some cells ∧
      (∀ p y, cells p y =
        wideCell ⟨[2000, 2001], [("A", [1, 2]), ("B", [3, 4])]⟩ p y) ∧
      ((tranform_dataframe ⟨[2000, 2001], [("A", [1, 2]), ("B", [3, 4])]⟩).map
        (fun e => e.2.1)).dedup = [2000, 2001] :=
  tranform_dataframe_roundtrip ⟨[2000, 2001], [("A", [1, 2]), ("B", [3, 4])]⟩
    (by decide) (by decide) (by decide) (by decide)
end TFMAirQuality
